import Mathlib

/-!
Shallow embedding of the transaction-classification pipeline of
`finance_app_streamlit.py` (personal finance dashboard).

Modelling conventions:
* A pandas DataFrame row is a `Row` record with explicit optional fields;
  a missing or NaN cell is `none`.
* Monetary amounts (Python floats) are modelled as rationals.
* `str.lower` is modelled by `lowerStr` (per-character `Char.toLower`);
  all shipped keywords and claim inputs are covered by this mapping.
* Column presence tests (`"operation_id" in df.columns`) are modelled by
  boolean flags on the `Frame` record.
-/

/-- A calendar date, as the (year, month, day) fields read off a pandas
timestamp in `assign_competence`. -/
structure Date where
  year : Int
  month : Nat
  day : Nat
deriving DecidableEq

/-- One transaction row of the working record set, with the canonical
columns produced by `parse_file`.  A missing column value or NaN cell is
`none`. -/
structure Row where
  date : Option Date
  title : Option String
  description : Option String
  amount : Option ℚ
  operation_id : Option String
  activity_id : Option String
deriving DecidableEq

/-- A record set together with which identity columns exist, modelling
the `in df.columns` tests of `remove_duplicates`. -/
structure Frame where
  hasOperationId : Bool
  hasActivityId : Bool
  rows : List Row
deriving DecidableEq

/-- The `CategoryRule` dataclass of the source. -/
structure CategoryRule where
  category : String
  subcategory : Option String
  keywords : List String
  is_fixed : Bool := false
  is_extraordinary : Bool := false
  is_investment : Bool := false
  is_valonni : Bool := false
deriving DecidableEq

/-- Rule 1 of `load_category_rules`. -/
def ruleTransferencia : CategoryRule :=
  ⟨"Transferência interna", none, ["Isabela Valonni", "Transferência interna"],
    false, false, false, false⟩

/-- Rule 2 of `load_category_rules`. -/
def ruleRestaurantes : CategoryRule :=
  ⟨"Alimentação", some "Restaurantes",
    ["99 Tecnologia", "Outback", "Clark Patisserie", "Passione Per Gelato",
     "Yokubo Restaurante"], false, false, false, false⟩

/-- Rule 3 of `load_category_rules`. -/
def ruleMercado : CategoryRule :=
  ⟨"Alimentação", some "Mercado",
    ["Armazem Urbano", "Supermercados", "Super Mercado", "Vianense"],
    true, false, false, false⟩

/-- Rule 4 of `load_category_rules`. -/
def ruleCarro : CategoryRule :=
  ⟨"Carro", some "Compra/Manutenção", ["Ludi Auto Pecas", "Yasmin", "Diego"],
    false, true, false, false⟩

/-- Rule 5 of `load_category_rules`. -/
def rulePlanoSaude : CategoryRule :=
  ⟨"Saúde", some "Plano de saúde", ["Bradesco Saude", "Bradesco Saúde"],
    true, false, false, false⟩

/-- Rule 6 of `load_category_rules`. -/
def ruleFarmacia : CategoryRule :=
  ⟨"Saúde", some "Farmácia", ["Venancio", "Drogarias"],
    false, false, false, false⟩

/-- Rule 7 of `load_category_rules`. -/
def ruleMoradia : CategoryRule :=
  ⟨"Moradia", some "Aluguel/Condomínio", ["Paula", "Carla"],
    true, false, false, false⟩

/-- Rule 8 of `load_category_rules`. -/
def rulePets : CategoryRule :=
  ⟨"Pets", some "Gastos com Pets", ["Petshop", "Pets"],
    true, false, false, false⟩

/-- Rule 9 of `load_category_rules`. -/
def ruleValonni : CategoryRule :=
  ⟨"Empresa Valonni", some "Repasse",
    ["Leonardo Aires", "Paula C R", "Ande Da Silva Lopes", "Wise"],
    false, false, false, true⟩

/-- Rule 10 of `load_category_rules`. -/
def ruleInvestimentos : CategoryRule :=
  ⟨"Investimentos", some "Yasmin", ["Yasmin"],
    false, false, true, false⟩

/-- The static rule list returned by `load_category_rules`, in source
order. -/
def load_category_rules : List CategoryRule :=
  [ruleTransferencia, ruleRestaurantes, ruleMercado, ruleCarro,
   rulePlanoSaude, ruleFarmacia, ruleMoradia, rulePets, ruleValonni,
   ruleInvestimentos]

/-- Model of Python `str.lower` (per-character lowering). -/
def lowerStr (s : String) : String := String.mk (s.data.map Char.toLower)

/-- Boolean test that the first list is an initial segment of the
second. -/
def isPrefixB : List Char → List Char → Bool
  | [], _ => true
  | _ :: _, [] => false
  | a :: as, b :: bs => (a == b) && isPrefixB as bs

/-- Boolean test that `needle` occurs as a contiguous run inside the
second list; model of the Python `in` operator between strings. -/
def containsSub (needle : List Char) : List Char → Bool
  | [] => needle.isEmpty
  | c :: t => isPrefixB needle (c :: t) || containsSub needle t

/-- `strContains hay needle` models Python `needle in hay`. -/
def strContains (hay needle : String) : Bool := containsSub needle.data hay.data

/-- Python truthiness of an optional string: `None` and the empty
string are falsy and fall through the `or` chain. -/
def pyTruthy (o : Option String) : Option String :=
  match o with
  | none => none
  | some s => if s = "" then none else some s

/-- The matching text of `categorize_transactions`:
`str(row.get("title") or row.get("description") or "").lower()`. -/
def matchText (r : Row) : String :=
  lowerStr ((pyTruthy r.title).getD ((pyTruthy r.description).getD ""))

/-- `any(keyword.lower() in desc for keyword in rule.keywords)`. -/
def ruleMatches (rule : CategoryRule) (text : String) : Bool :=
  rule.keywords.any (fun kw => strContains text (lowerStr kw))

/-- First rule of the list whose keywords match the text; models the
inner loop of `categorize_transactions` with its early `break`. -/
def findRule (rules : List CategoryRule) (text : String) : Option CategoryRule :=
  rules.find? (fun rule => ruleMatches rule text)

/-- A transaction enriched with the six classification columns added by
`categorize_transactions`. -/
structure Classified where
  row : Row
  category : String
  subcategory : String
  is_fixed : Bool
  is_extraordinary : Bool
  is_investment : Bool
  is_valonni : Bool
deriving DecidableEq

/-- Classification of one row: the first matching rule contributes its
category, subcategory (`rule.subcategory or ""`) and the four flags;
on no match the defaults `"Revisar"`, `""`, and four `false` apply. -/
def classifyRow (rules : List CategoryRule) (r : Row) : Classified :=
  match findRule rules (matchText r) with
  | some rule =>
      ⟨r, rule.category, rule.subcategory.getD "", rule.is_fixed,
        rule.is_extraordinary, rule.is_investment, rule.is_valonni⟩
  | none => ⟨r, "Revisar", "", false, false, false, false⟩

/-- `categorize_transactions`: one classification per input row, in
order. -/
def categorize_transactions (df : List Row) (rules : List CategoryRule) :
    List Classified :=
  df.map (classifyRow rules)

/-- The account holder name literal searched for (already lower case)
by `detect_internal_transfers`. -/
def holderName : String := "isabela valonni"

/-- `df["description"].str.contains("isabela valonni", case=False, na=False)`
for one row: a null description never matches (`na=False`), otherwise a
case-insensitive containment test on the description column only. -/
def descContainsHolder (r : Row) : Bool :=
  match r.description with
  | none => false
  | some d => strContains (lowerStr d) holderName

/-- Per-row effect of `detect_internal_transfers`: rows whose category
is `"Revisar"` and whose description mentions the holder get category
`"Transferência interna"`; only the category column is assigned. -/
def detectOne (c : Classified) : Classified :=
  if c.category = "Revisar" ∧ descContainsHolder c.row then
    { c with category := "Transferência interna" }
  else c

/-- `detect_internal_transfers` over the whole record set. -/
def detect_internal_transfers (df : List Classified) : List Classified :=
  df.map detectOne

/-- First day of the month after `d`; the year and month fields of
`date + pd.DateOffset(months=1)` (the day field, which DateOffset may
clamp, is not used by the source). -/
def nextMonthFirst (d : Date) : Date :=
  if d.month = 12 then ⟨d.year + 1, 1, 1⟩ else ⟨d.year, d.month + 1, 1⟩

/-- Competence of one date under `assign_competence`: null date gives
null; `day >= cycle_start_day` gives the first of the following month,
otherwise the first of the own month. -/
def competence_of (cycle_start_day : Nat) : Option Date → Option Date
  | none => none
  | some d =>
      if cycle_start_day ≤ d.day then some (nextMonthFirst d)
      else some ⟨d.year, d.month, 1⟩

/-- A classified transaction with its competence column. -/
structure CompTx where
  cls : Classified
  competence : Option Date
deriving DecidableEq

/-- `assign_competence` over the record set. -/
def assign_competence (df : List Classified) (cycle_start_day : Nat) :
    List CompTx :=
  df.map (fun c => ⟨c, competence_of cycle_start_day c.row.date⟩)

/-- Keep-first deduplication by a key, with the set of keys already
seen; models `df.drop_duplicates(subset=[...], keep="first")`, which
keeps a row exactly when its key did not occur in any earlier row. -/
def dropDupSeen {α K : Type} [DecidableEq K] (key : α → K) :
    List α → List K → List α
  | [], _ => []
  | a :: t, seen =>
      if key a ∈ seen then dropDupSeen key t seen
      else a :: dropDupSeen key t (key a :: seen)

/-- Keep-first deduplication of a list of keys. -/
def dedupFirst {K : Type} [DecidableEq K] (l : List K) : List K :=
  dropDupSeen id l []

/-- `remove_duplicates`: dedupe by `operation_id` when that column is
present, else by `activity_id` when present, else by the composite
(date, description, amount); `keep="first"` in all three branches. -/
def remove_duplicates (df : Frame) : Frame :=
  if df.hasOperationId then
    { df with rows := dropDupSeen (fun r => r.operation_id) df.rows [] }
  else if df.hasActivityId then
    { df with rows := dropDupSeen (fun r => r.activity_id) df.rows [] }
  else
    { df with rows :=
        dropDupSeen (fun r => (r.date, r.description, r.amount)) df.rows [] }

/-- The composite grouping key of `compute_summary`. -/
abbrev SKey := Date × String × Bool × Bool × Bool × Bool

/-- Grouping key of one transaction; `none` when competence is null
(pandas groupby drops rows with a null group key). -/
def summaryKey (t : CompTx) : Option SKey :=
  t.competence.map (fun c =>
    (c, t.cls.category, t.cls.is_fixed, t.cls.is_extraordinary,
     t.cls.is_investment, t.cls.is_valonni))

/-- Amount contributed by one transaction to its group sum: a null
amount contributes zero (pandas sum skips NaN). -/
def txAmount (t : CompTx) : ℚ := (t.cls.row.amount).getD 0

/-- One output row of `compute_summary`. -/
structure SummaryRow where
  competence : Date
  category : String
  is_fixed : Bool
  is_extraordinary : Bool
  is_investment : Bool
  is_valonni : Bool
  total_amount : ℚ
deriving DecidableEq

/-- Build a summary row from a grouping key and a group total. -/
def mkSummaryRow (k : SKey) (total : ℚ) : SummaryRow :=
  ⟨k.1, k.2.1, k.2.2.1, k.2.2.2.1, k.2.2.2.2.1, k.2.2.2.2.2, total⟩

/-- The distinct grouping keys of the record set, rows with null
competence excluded.  (Pandas sorts group keys; only the set of groups
and their totals are relied on by the claims, so first-occurrence order
is used here.) -/
def groupKeys (df : List CompTx) : List SKey :=
  dedupFirst (df.filterMap summaryKey)

/-- `compute_summary`: empty input gives an empty summary; otherwise
one row per distinct grouping key with the sum of the amounts of its
group. -/
def compute_summary (df : List CompTx) : List SummaryRow :=
  if df.isEmpty then []
  else
    (groupKeys df).map (fun k =>
      mkSummaryRow k
        (((df.filter (fun t => decide (summaryKey t = some k))).map
          txAmount).sum))

/-- `summary_by_type`: empty input gives three empty frames; otherwise
the personal / Valonni / investment partitions of the summary. -/
def summary_by_type (df : List SummaryRow) :
    List SummaryRow × List SummaryRow × List SummaryRow :=
  if df.isEmpty then ([], [], [])
  else
    (df.filter (fun r => !r.is_valonni && !r.is_investment),
     df.filter (fun r => r.is_valonni),
     df.filter (fun r => r.is_investment))

/-- Whitespace test used by the model of Python `str.strip`. -/
def isWsChar (c : Char) : Bool :=
  (c == ' ') || (c == '\t') || (c == '\n') || (c == '\r')

/-- Strip leading and trailing whitespace from a character list. -/
def trimChars (cs : List Char) : List Char :=
  ((cs.dropWhile isWsChar).reverse.dropWhile isWsChar).reverse

/-- `c.strip().lower()` applied to a column name in `parse_file`. -/
def normalizeColName (c : String) : String :=
  String.mk ((trimChars c.data).map Char.toLower)

/-- The `rename_map` of `parse_file`; entries mapping a name to itself
are identities and only the three true aliases change a name. -/
def renameCol (c : String) : String :=
  if c = "data" then "date"
  else if c = "valor" then "amount"
  else if c = "operationid" then "operation_id"
  else c

/-- Failure signalled when a required column is absent.  The source
reports this condition with `st.error` naming the amount column and
returns an empty DataFrame; the report is embedded as this error
value. -/
inductive ParseError where
  | MissingRequiredColumnError (col : String)
deriving DecidableEq

/-- Raw tabular input handed to `parse_file` after the file read:
column names and rows of string cells. -/
structure RawTable where
  cols : List String
  rows : List (List String)
deriving DecidableEq

/-- Result of `parse_file`: the normalized table, or an empty table
plus an error report.  (The per-cell date and amount coercions of the
source are modelled separately by `coerceAmount`; cells are kept raw
here because no claim depends on them at this level.) -/
structure ParseResult where
  cols : List String
  rows : List (List String)
  error : Option ParseError
deriving DecidableEq

/-- Column-normalization and required-column logic of `parse_file`:
names are stripped, lower-cased and passed through the rename map; if
no `"amount"` column results, the function reports the missing column
and returns an empty result set. -/
def parse_file (t : RawTable) : ParseResult :=
  let cols2 := t.cols.map (fun c => renameCol (normalizeColName c))
  if "amount" ∈ cols2 then
    { cols := cols2, rows := t.rows, error := none }
  else
    { cols := [], rows := [],
      error := some (ParseError.MissingRequiredColumnError "amount") }

/-- The amount-string normalization of `parse_file`:
`.str.replace(".", "", regex=False)` then
`.str.replace(",", ".", regex=False)`. -/
def normalizeAmountChars (cs : List Char) : List Char :=
  (cs.filter (fun c => !(c == '.'))).map (fun c => if c == ',' then '.' else c)

/-- Numeric value of a decimal digit character. -/
def digitVal (c : Char) : Nat := c.toNat - 48

/-- Value of a digit string read left to right. -/
def digitsVal (l : List Char) : Nat :=
  l.foldl (fun a c => 10 * a + digitVal c) 0

/-- Unsigned part of the numeric parse modelling
`pd.to_numeric(errors="coerce")` on plain decimal strings: digits with
at most one decimal point; anything else coerces to null. -/
def parseDecimalCore (cs : List Char) : Option ℚ :=
  let intPart := cs.takeWhile (fun c => !(c == '.'))
  match cs.dropWhile (fun c => !(c == '.')) with
  | [] =>
      if intPart ≠ [] ∧ intPart.all Char.isDigit then
        some ((digitsVal intPart : ℚ))
      else none
  | _ :: frac =>
      if (intPart ≠ [] ∨ frac ≠ []) ∧ intPart.all Char.isDigit ∧
          frac.all Char.isDigit then
        some ((digitsVal intPart : ℚ) + (digitsVal frac : ℚ) / 10 ^ frac.length)
      else none

/-- Signed decimal parse: an optional leading minus sign. -/
def parseDecimal (cs : List Char) : Option ℚ :=
  match cs with
  | [] => none
  | c :: rest =>
      if c = '-' then (parseDecimalCore rest).map (fun q => -q)
      else parseDecimalCore (c :: rest)

/-- The full amount coercion of `parse_file` on one cell: separator
rewriting followed by numeric parsing, null on failure. -/
def coerceAmount (s : String) : Option ℚ :=
  parseDecimal (normalizeAmountChars s.data)

/-- Concrete transaction whose text is the worked example of the
first-match policy. -/
def yasminTx : Row :=
  ⟨none, none, some "Yasmin Investimentos", some (-100), none, none⟩

/-- Concrete transaction matching no keyword rule whose description
mentions the account holder. -/
def transferTx : Row :=
  ⟨none, some "Pix agendado", some "Enviado para Isabela Valonni",
    some (-50), none, none⟩

/-- Concrete transaction matching a keyword rule whose description also
mentions the account holder. -/
def outbackTx : Row :=
  ⟨none, some "Outback Rio", some "Isabela Valonni Outback",
    some (-80), none, none⟩

/-- Concrete transaction matching no keyword rule and not mentioning
the holder. -/
def unmatchedTx : Row :=
  ⟨none, none, some "pagamento boleto xyz", some (-5), none, none⟩

/-- First of two rows sharing an operation id. -/
def opTxA : Row :=
  ⟨some ⟨2025, 1, 1⟩, some "t1", some "d1", some 10, some "op-1", some "act-1"⟩

/-- Second of two rows sharing an operation id, all other fields
different. -/
def opTxB : Row :=
  ⟨some ⟨2025, 2, 2⟩, some "t2", some "d2", some 20, some "op-1", some "act-2"⟩

/-- First of two rows with a null operation id. -/
def nullOpTxA : Row :=
  ⟨some ⟨2025, 3, 3⟩, some "a", some "da", some 1, none, some "x"⟩

/-- Second of two rows with a null operation id, all other fields
different. -/
def nullOpTxB : Row :=
  ⟨some ⟨2025, 4, 4⟩, some "b", some "db", some 2, none, some "y"⟩

/-- A raw table with no locatable amount column. -/
def noAmountTable : RawTable :=
  ⟨[" Data ", "Description"], [["2025-01-01", "x"]]⟩

/-! ## Helper lemmas -/

/-- Auxiliary: a first-match search over a rule list returns the first
rule after the non-matching ones. -/
theorem findRule_append_first (post : List CategoryRule) (A : CategoryRule)
    (text : String) (hA : ruleMatches A text = true) :
    ∀ pre : List CategoryRule, (∀ B ∈ pre, ruleMatches B text = false) →
      findRule (pre ++ A :: post) text = some A := by
  intro pre
  induction pre with
  | nil =>
      intro _
      simp only [List.nil_append, findRule]
      exact List.find?_cons_of_pos _ hA
  | cons B t ih =>
      intro hpre
      have hB := hpre B (List.mem_cons_self B t)
      simp only [List.cons_append, findRule] at ih ⊢
      rw [List.find?_cons_of_neg _ (by simp [hB])]
      exact ih (fun C hC => hpre C (List.mem_cons_of_mem B hC))

/-! ## Claim theorems -/

/-- Claim C1: the classifier matches against the lower-cased title when
present and non-empty, else against the lower-cased description, and
the first rule in configured order with a matching keyword supplies
category, subcategory, and all four flags; with the shipped rules,
the text `Yasmin Investimentos` resolves to `Carro`, not
`Investimentos`. -/
theorem claim_C1 (pre post : List CategoryRule) (A : CategoryRule) (r : Row)
    (hA : ruleMatches A (matchText r) = true)
    (hpre : ∀ B ∈ pre, ruleMatches B (matchText r) = false) :
    classifyRow (pre ++ A :: post) r =
      ⟨r, A.category, A.subcategory.getD "", A.is_fixed, A.is_extraordinary,
        A.is_investment, A.is_valonni⟩
    ∧ (∀ r2 : Row, ∀ s : String, r2.title = some s → s ≠ "" →
        matchText r2 = lowerStr s)
    ∧ (∀ r2 : Row, r2.title = none ∨ r2.title = some "" →
        matchText r2 = lowerStr (r2.description.getD ""))
    ∧ (classifyRow load_category_rules yasminTx).category = "Carro" := by
  refine ⟨?_, ?_, ?_, by decide⟩
  · have hfind := findRule_append_first post A (matchText r) hA pre hpre
    simp [classifyRow, hfind]
  · intro r2 s hs hne
    simp [matchText, pyTruthy, hs, hne]
  · intro r2 h2
    rcases h2 with h2 | h2 <;>
    · cases hd : r2.description with
      | none => simp [matchText, pyTruthy, h2, hd]
      | some d =>
          by_cases hde : d = "" <;> simp [matchText, pyTruthy, h2, hd, hde]

/-- Witness for C1 at the shipped rules: the Yasmin text, matched by
rule 4 (Carro) with rules 1 to 3 failing, takes the Carro rule data. -/
theorem claim_C1_witness :
    classifyRow ([ruleTransferencia, ruleRestaurantes, ruleMercado] ++
        ruleCarro :: [rulePlanoSaude, ruleFarmacia, ruleMoradia, rulePets,
          ruleValonni, ruleInvestimentos]) yasminTx =
      ⟨yasminTx, ruleCarro.category, ruleCarro.subcategory.getD "",
        ruleCarro.is_fixed, ruleCarro.is_extraordinary,
        ruleCarro.is_investment, ruleCarro.is_valonni⟩ :=
  (claim_C1 [ruleTransferencia, ruleRestaurantes, ruleMercado]
    [rulePlanoSaude, ruleFarmacia, ruleMoradia, rulePets, ruleValonni,
      ruleInvestimentos] ruleCarro yasminTx (by decide) (by decide)).1

/-- Claim C3: a null date has null competence; a day at or past the
cycle start maps to the first of the following month (with year
rollover at December), an earlier day to the first of the own month;
boundary examples at cycle start day 28. -/
theorem claim_C3 (csd : Nat) (d : Date) :
    competence_of csd none = none
    ∧ (csd ≤ d.day → competence_of csd (some d) = some (nextMonthFirst d))
    ∧ (d.day < csd → competence_of csd (some d) = some ⟨d.year, d.month, 1⟩)
    ∧ (d.month = 12 → nextMonthFirst d = ⟨d.year + 1, 1, 1⟩)
    ∧ (d.month ≠ 12 → nextMonthFirst d = ⟨d.year, d.month + 1, 1⟩)
    ∧ competence_of 28 (some ⟨2025, 11, 27⟩) = some ⟨2025, 11, 1⟩
    ∧ competence_of 28 (some ⟨2025, 11, 28⟩) = some ⟨2025, 12, 1⟩
    ∧ competence_of 28 (some ⟨2025, 12, 27⟩) = some ⟨2025, 12, 1⟩
    ∧ competence_of 28 (some ⟨2025, 12, 28⟩) = some ⟨2026, 1, 1⟩ := by
  refine ⟨rfl, ?_, ?_, ?_, ?_, by decide, by decide, by decide, by decide⟩
  · intro h; simp [competence_of, h]
  · intro h; simp [competence_of, Nat.not_le.mpr h]
  · intro h; simp [nextMonthFirst, h]
  · intro h; simp [nextMonthFirst, h]

/-- Witness for C3 at the December year-boundary example. -/
theorem claim_C3_witness :
    competence_of 28 (some ⟨2025, 12, 28⟩) =
      some (nextMonthFirst ⟨2025, 12, 28⟩) :=
  (claim_C3 28 ⟨2025, 12, 28⟩).2.1 (by decide)

/-- Claim C5: the transfer pass reclassifies exactly the rows with
category `Revisar` whose description mentions the holder name,
changing only the category column; rows classified by a keyword rule
are never touched. -/
theorem claim_C5 :
    (∀ (rules : List CategoryRule) (r : Row),
        findRule rules (matchText r) = none → descContainsHolder r = true →
        detectOne (classifyRow rules r) =
          ⟨r, "Transferência interna", "", false, false, false, false⟩)
    ∧ (∀ (rules : List CategoryRule) (r : Row) (A : CategoryRule),
        findRule rules (matchText r) = some A → A.category ≠ "Revisar" →
        detectOne (classifyRow rules r) = classifyRow rules r)
    ∧ (∀ c : Classified, c.category ≠ "Revisar" → detectOne c = c)
    ∧ (∀ c : Classified, descContainsHolder c.row = false → detectOne c = c)
    ∧ (∀ c : Classified, (detectOne c).subcategory = c.subcategory
        ∧ (detectOne c).is_fixed = c.is_fixed
        ∧ (detectOne c).is_extraordinary = c.is_extraordinary
        ∧ (detectOne c).is_investment = c.is_investment
        ∧ (detectOne c).is_valonni = c.is_valonni
        ∧ (detectOne c).row = c.row)
    ∧ (∀ l : List Classified, (detect_internal_transfers l).length = l.length) := by
  refine ⟨?_, ?_, ?_, ?_, ?_, ?_⟩
  · intro rules r hf hd
    simp [classifyRow, hf, detectOne, hd]
  · intro rules r A hf hA
    simp [classifyRow, hf, detectOne, hA]
  · intro c h
    simp [detectOne, h]
  · intro c h
    simp [detectOne, h]
  · intro c
    unfold detectOne
    split <;> simp
  · intro l
    simp [detect_internal_transfers]

/-- Witness for C5: an unmatched row naming the holder is rescued; a
row matched by the Outback rule and also naming the holder keeps the
rule classification. -/
theorem claim_C5_witness :
    detectOne (classifyRow load_category_rules transferTx) =
      ⟨transferTx, "Transferência interna", "", false, false, false, false⟩
    ∧ detectOne (classifyRow load_category_rules outbackTx) =
      classifyRow load_category_rules outbackTx :=
  ⟨claim_C5.1 load_category_rules transferTx (by decide) (by decide),
   claim_C5.2.1 load_category_rules outbackTx ruleRestaurantes (by decide)
     (by decide)⟩

/-- Claim C6: when no amount column can be located after column
normalization, parsing yields the empty result set, not partial data,
and reports the missing column; nothing remains for classification. -/
theorem claim_C6 (t : RawTable)
    (h : ∀ c ∈ t.cols, renameCol (normalizeColName c) ≠ "amount") :
    (parse_file t).rows = [] ∧ (parse_file t).cols = []
    ∧ (parse_file t).error =
        some (ParseError.MissingRequiredColumnError "amount")
    ∧ (∀ rules : List CategoryRule, categorize_transactions [] rules = []) := by
  have hmem : "amount" ∉ t.cols.map (fun c => renameCol (normalizeColName c)) := by
    intro hm
    rcases List.mem_map.mp hm with ⟨c, hc, he⟩
    exact h c hc he
  refine ⟨?_, ?_, ?_, fun rules => rfl⟩ <;> simp [parse_file, hmem]

/-- Witness for C6 at a table whose columns normalize to `date` and
`description` only. -/
theorem claim_C6_witness :
    (parse_file noAmountTable).rows = []
    ∧ (parse_file noAmountTable).error =
        some (ParseError.MissingRequiredColumnError "amount") := by
  have h := claim_C6 noAmountTable (by decide)
  exact ⟨h.1, h.2.2.1⟩

/-- Claim C7: classification emits exactly one row per input row, keeps
every input row, and gives the `Revisar` default with empty subcategory
and false flags to any text matched by no rule. -/
theorem claim_C7 (df : List Row) (rules : List CategoryRule) :
    (categorize_transactions df rules).length = df.length
    ∧ (∀ r ∈ df, classifyRow rules r ∈ categorize_transactions df rules)
    ∧ (∀ r : Row, (∀ rule ∈ rules, ruleMatches rule (matchText r) = false) →
        classifyRow rules r = ⟨r, "Revisar", "", false, false, false, false⟩) := by
  refine ⟨by simp [categorize_transactions], ?_, ?_⟩
  · intro r hr
    exact List.mem_map_of_mem _ hr
  · intro r hno
    have hfind : findRule rules (matchText r) = none := by
      refine List.find?_eq_none.mpr ?_
      intro rule hrule
      simp [hno rule hrule]
    simp [classifyRow, hfind]

/-- Witness for C7 at a transaction matching none of the shipped
rules. -/
theorem claim_C7_witness :
    (categorize_transactions [unmatchedTx] load_category_rules).length =
      [unmatchedTx].length
    ∧ classifyRow load_category_rules unmatchedTx =
      ⟨unmatchedTx, "Revisar", "", false, false, false, false⟩ :=
  ⟨(claim_C7 [unmatchedTx] load_category_rules).1,
   (claim_C7 [unmatchedTx] load_category_rules).2.2 unmatchedTx (by decide)⟩

/-- Claim C8: the empty record set is processed without error, giving
an empty summary and three empty purpose partitions. -/
theorem claim_C8 :
    compute_summary [] = []
    ∧ summary_by_type (compute_summary []) = ([], [], [])
    ∧ summary_by_type [] = ([], [], []) :=
  ⟨rfl, rfl, rfl⟩

/-- Keep-first deduplication returns a sublist: surviving rows keep the
original relative order. -/
theorem dropDupSeen_sublist {α K : Type} [DecidableEq K] (key : α → K) :
    ∀ (l : List α) (seen : List K), (dropDupSeen key l seen).Sublist l := by
  intro l
  induction l with
  | nil => intro seen; simp [dropDupSeen]
  | cons a t ih =>
      intro seen
      by_cases h : key a ∈ seen
      · simp only [dropDupSeen, if_pos h]
        exact (ih seen).cons a
      · simp only [dropDupSeen, if_neg h]
        exact (ih (key a :: seen)).cons₂ a

/-- No key of the deduplicated output lies in the already-seen set. -/
theorem dropDupSeen_key_not_seen {α K : Type} [DecidableEq K] (key : α → K) :
    ∀ (l : List α) (seen : List K) (k : K),
      k ∈ (dropDupSeen key l seen).map key → k ∉ seen := by
  intro l
  induction l with
  | nil => intro seen k hk; simp [dropDupSeen] at hk
  | cons a t ih =>
      intro seen k hk
      by_cases h : key a ∈ seen
      · simp only [dropDupSeen, if_pos h] at hk
        exact ih seen k hk
      · simp only [dropDupSeen, if_neg h, List.map_cons, List.mem_cons] at hk
        rcases hk with rfl | hk
        · exact h
        · have h2 := ih _ k hk
          intro hs
          exact h2 (List.mem_cons_of_mem _ hs)

/-- The keys of the deduplicated output are pairwise distinct. -/
theorem dropDupSeen_keys_nodup {α K : Type} [DecidableEq K] (key : α → K) :
    ∀ (l : List α) (seen : List K), ((dropDupSeen key l seen).map key).Nodup := by
  intro l
  induction l with
  | nil => intro seen; simp [dropDupSeen]
  | cons a t ih =>
      intro seen
      by_cases h : key a ∈ seen
      · simpa only [dropDupSeen, if_pos h] using ih seen
      · simp only [dropDupSeen, if_neg h, List.map_cons, List.nodup_cons]
        refine ⟨?_, ih _⟩
        intro hmem
        exact dropDupSeen_key_not_seen key t (key a :: seen) (key a) hmem
          (List.mem_cons_self _ _)

/-- Membership in keep-first key deduplication. -/
theorem dedupFirst_mem {K : Type} [DecidableEq K] :
    ∀ (l : List K) (seen : List K) (k : K), k ∈ l → k ∉ seen →
      k ∈ dropDupSeen id l seen := by
  intro l
  induction l with
  | nil => intro seen k hk; simp at hk
  | cons a t ih =>
      intro seen k hk hns
      rcases List.mem_cons.mp hk with rfl | hk2
      · have h : (id k ∈ seen) = False := by simp [hns]
        simp only [dropDupSeen, h, if_false]
        exact List.mem_cons_self _ _
      · by_cases h : id a ∈ seen
        · simp only [dropDupSeen, if_pos h]
          exact ih seen k hk2 hns
        · simp only [dropDupSeen, if_neg h]
          by_cases hak : k = a
          · subst hak; exact List.mem_cons_self _ _
          · refine List.mem_cons_of_mem _ (ih (id a :: seen) k hk2 ?_)
            intro hm
            rcases List.mem_cons.mp hm with h1 | h1
            · exact hak h1
            · exact hns h1

/-- Count of rows with a given key after keep-first deduplication: zero
when the key was already seen, else capped at one. -/
theorem dropDupSeen_countP {α K : Type} [DecidableEq K] (key : α → K) :
    ∀ (l : List α) (seen : List K) (k : K),
      (dropDupSeen key l seen).countP (fun a => decide (key a = k)) =
        if k ∈ seen then 0
        else min (l.countP (fun a => decide (key a = k))) 1 := by
  intro l
  induction l with
  | nil =>
      intro seen k
      by_cases h : k ∈ seen <;> simp [dropDupSeen, h]
  | cons a t ih =>
      intro seen k
      by_cases h : key a ∈ seen
      · simp only [dropDupSeen, if_pos h]
        rw [ih seen k, List.countP_cons]
        by_cases hk : k ∈ seen
        · simp [hk]
        · have hne : (decide (key a = k)) = false := by
            simp only [decide_eq_false_iff_not]
            intro he
            exact hk (he ▸ h)
          simp [hk, hne]
      · simp only [dropDupSeen, if_neg h]
        rw [List.countP_cons, List.countP_cons, ih (key a :: seen) k]
        by_cases hk : k = key a
        · subst hk
          rw [if_pos (List.mem_cons_self _ _), if_neg h]
          simp
        · have hd : (decide (key a = k)) = false := by
            simp only [decide_eq_false_iff_not]
            exact fun he => hk he.symm
          rw [hd]
          by_cases hks : k ∈ seen
          · rw [if_pos (List.mem_cons_of_mem _ hks), if_pos hks]
            simp
          · have hkm : k ∉ key a :: seen := by
              intro hm
              rcases List.mem_cons.mp hm with h1 | h1
              · exact hk h1
              · exact hks h1
            rw [if_neg hkm, if_neg hks]
            simp

/-- For every row, the first row of the input carrying the same key
survives keep-first deduplication. -/
theorem dropDupSeen_find_first {α K : Type} [DecidableEq K] (key : α → K) :
    ∀ (l : List α) (seen : List K) (r : α), r ∈ l → key r ∉ seen →
      ∃ s, l.find? (fun x => decide (key x = key r)) = some s ∧
        s ∈ dropDupSeen key l seen := by
  intro l
  induction l with
  | nil => intro seen r hr; simp at hr
  | cons a t ih =>
      intro seen r hr hrs
      by_cases hak : key a = key r
      · refine ⟨a, List.find?_cons_of_pos _ (by simp [hak]), ?_⟩
        have h : key a ∉ seen := by rw [hak]; exact hrs
        simp only [dropDupSeen, if_neg h]
        exact List.mem_cons_self _ _
      · have hfind : (a :: t).find? (fun x => decide (key x = key r)) =
            t.find? (fun x => decide (key x = key r)) :=
          List.find?_cons_of_neg _ (by simp [hak])
        have hrt : r ∈ t := by
          rcases List.mem_cons.mp hr with rfl | h1
          · exact absurd rfl hak
          · exact h1
        by_cases h : key a ∈ seen
        · rcases ih seen r hrt hrs with ⟨s, hs1, hs2⟩
          refine ⟨s, by rw [hfind]; exact hs1, ?_⟩
          simp only [dropDupSeen, if_pos h]
          exact hs2
        · have hrs2 : key r ∉ key a :: seen := by
            intro hm
            rcases List.mem_cons.mp hm with h1 | h1
            · exact hak h1.symm
            · exact hrs h1
          rcases ih (key a :: seen) r hrt hrs2 with ⟨s, hs1, hs2⟩
          refine ⟨s, by rw [hfind]; exact hs1, ?_⟩
          simp only [dropDupSeen, if_neg h]
          exact List.mem_cons_of_mem _ hs2

/-- Keep-first deduplication commutes with any rewriting of the rows
that does not change their keys. -/
theorem dropDupSeen_map_comm {α K : Type} [DecidableEq K] (key : α → K)
    (f : α → α) (hf : ∀ a, key (f a) = key a) :
    ∀ (l : List α) (seen : List K),
      dropDupSeen key (l.map f) seen = (dropDupSeen key l seen).map f := by
  intro l
  induction l with
  | nil => intro seen; simp [dropDupSeen]
  | cons a t ih =>
      intro seen
      simp only [List.map_cons, dropDupSeen, hf a]
      by_cases h : key a ∈ seen
      · simp only [if_pos h]
        exact ih seen
      · simp only [if_neg h, List.map_cons]
        rw [ih (key a :: seen)]

/-- Claim C4: with an operation id column present, deduplication keeps
a stable sublist with pairwise distinct operation ids, keeps the first
occurrence of each operation id, and is entirely insensitive to the
activity id column. -/
theorem claim_C4 (df : Frame) (h : df.hasOperationId = true) :
    (remove_duplicates df).rows.Sublist df.rows
    ∧ ((remove_duplicates df).rows.map (fun r => r.operation_id)).Nodup
    ∧ (∀ r ∈ df.rows, ∃ s,
        df.rows.find? (fun x => decide (x.operation_id = r.operation_id)) =
          some s
        ∧ s ∈ (remove_duplicates df).rows)
    ∧ (∀ g : Row → Option String,
        (remove_duplicates
          { df with rows :=
              df.rows.map (fun r => { r with activity_id := g r }) }).rows
        = (remove_duplicates df).rows.map
            (fun r => { r with activity_id := g r })) := by
  have hrw : (remove_duplicates df).rows =
      dropDupSeen (fun r => r.operation_id) df.rows [] := by
    simp [remove_duplicates, h]
  refine ⟨?_, ?_, ?_, ?_⟩
  · rw [hrw]
    exact dropDupSeen_sublist _ df.rows []
  · rw [hrw]
    exact dropDupSeen_keys_nodup _ df.rows []
  · intro r hr
    rw [hrw]
    exact dropDupSeen_find_first (fun r => r.operation_id) df.rows [] r hr
      (by simp)
  · intro g
    rw [hrw]
    simp only [remove_duplicates, h, if_pos]
    exact dropDupSeen_map_comm (fun r => r.operation_id)
      (fun r => { r with activity_id := g r }) (fun a => rfl) df.rows []

/-- Witness for C4: two rows sharing an operation id but differing in
every other field, activity id column also present, collapse to the
first row. -/
theorem claim_C4_witness :
    (remove_duplicates ⟨true, true, [opTxA, opTxB]⟩).rows.Sublist [opTxA, opTxB]
    ∧ ((remove_duplicates ⟨true, true, [opTxA, opTxB]⟩).rows.map
        (fun r => r.operation_id)).Nodup
    ∧ (remove_duplicates ⟨true, true, [opTxA, opTxB]⟩).rows = [opTxA] := by
  have h := claim_C4 ⟨true, true, [opTxA, opTxB]⟩ rfl
  exact ⟨h.1, h.2.1, by decide⟩

/-- Claim C10: null identity keys are treated as equal: only the first
row with a null operation id survives, and likewise for the activity
id fallback. -/
theorem claim_C10 (df : Frame) :
    (df.hasOperationId = true →
      ((remove_duplicates df).rows.countP
          (fun r => decide (r.operation_id = none)) =
        min (df.rows.countP (fun r => decide (r.operation_id = none))) 1)
      ∧ (∀ r ∈ df.rows, r.operation_id = none → ∃ s,
          df.rows.find? (fun x => decide (x.operation_id = none)) = some s
          ∧ s ∈ (remove_duplicates df).rows))
    ∧ (df.hasOperationId = false → df.hasActivityId = true →
      ((remove_duplicates df).rows.countP
          (fun r => decide (r.activity_id = none)) =
        min (df.rows.countP (fun r => decide (r.activity_id = none))) 1)
      ∧ (∀ r ∈ df.rows, r.activity_id = none → ∃ s,
          df.rows.find? (fun x => decide (x.activity_id = none)) = some s
          ∧ s ∈ (remove_duplicates df).rows)) := by
  constructor
  · intro h
    have hrw : (remove_duplicates df).rows =
        dropDupSeen (fun r => r.operation_id) df.rows [] := by
      simp [remove_duplicates, h]
    constructor
    · rw [hrw]
      have hc := dropDupSeen_countP (fun r => r.operation_id) df.rows []
        (none : Option String)
      simpa using hc
    · intro r hr hr0
      rcases dropDupSeen_find_first (fun r => r.operation_id) df.rows [] r hr
        (by simp) with ⟨s, hs1, hs2⟩
      rw [hr0] at hs1
      exact ⟨s, hs1, by rw [hrw]; exact hs2⟩
  · intro h1 h2
    have hrw : (remove_duplicates df).rows =
        dropDupSeen (fun r => r.activity_id) df.rows [] := by
      simp [remove_duplicates, h1, h2]
    constructor
    · rw [hrw]
      have hc := dropDupSeen_countP (fun r => r.activity_id) df.rows []
        (none : Option String)
      simpa using hc
    · intro r hr hr0
      rcases dropDupSeen_find_first (fun r => r.activity_id) df.rows [] r hr
        (by simp) with ⟨s, hs1, hs2⟩
      rw [hr0] at hs1
      exact ⟨s, hs1, by rw [hrw]; exact hs2⟩

/-- Witness for C10: two rows with null operation ids and different
dates, descriptions and amounts collapse to the first. -/
theorem claim_C10_witness :
    ((remove_duplicates ⟨true, true, [nullOpTxA, nullOpTxB]⟩).rows.countP
        (fun r => decide (r.operation_id = none)) =
      min ([nullOpTxA, nullOpTxB].countP
        (fun r => decide (r.operation_id = none))) 1)
    ∧ (remove_duplicates ⟨true, true, [nullOpTxA, nullOpTxB]⟩).rows =
      [nullOpTxA] := by
  have h := (claim_C10 ⟨true, true, [nullOpTxA, nullOpTxB]⟩).1 rfl
  exact ⟨h.1, by decide⟩

/-- A filter whose predicate holds everywhere keeps the list. -/
theorem filter_true_of {α : Type} (p : α → Bool) :
    ∀ l : List α, (∀ a ∈ l, p a = true) → l.filter p = l := by
  intro l
  induction l with
  | nil => intro _; rfl
  | cons a t ih =>
      intro h
      rw [List.filter_cons, if_pos (h a (List.mem_cons_self a t)),
        ih (fun b hb => h b (List.mem_cons_of_mem a hb))]

/-- Two maps agreeing on every element of a list agree on the list. -/
theorem map_ext_on {α β : Type} (f g : α → β) :
    ∀ l : List α, (∀ a ∈ l, f a = g a) → l.map f = l.map g := by
  intro l
  induction l with
  | nil => intro _; rfl
  | cons a t ih =>
      intro h
      rw [List.map_cons, List.map_cons, h a (List.mem_cons_self a t),
        ih (fun b hb => h b (List.mem_cons_of_mem a hb))]

/-- takeWhile under an everywhere-true predicate keeps the list. -/
theorem takeWhile_all {α : Type} (p : α → Bool) :
    ∀ l : List α, (∀ a ∈ l, p a = true) → l.takeWhile p = l := by
  intro l
  induction l with
  | nil => intro _; rfl
  | cons a t ih =>
      intro h
      rw [List.takeWhile_cons, if_pos (h a (List.mem_cons_self a t)),
        ih (fun b hb => h b (List.mem_cons_of_mem a hb))]

/-- dropWhile under an everywhere-true predicate drops the list. -/
theorem dropWhile_all {α : Type} (p : α → Bool) :
    ∀ l : List α, (∀ a ∈ l, p a = true) → l.dropWhile p = [] := by
  intro l
  induction l with
  | nil => intro _; rfl
  | cons a t ih =>
      intro h
      rw [List.dropWhile_cons_of_pos (h a (List.mem_cons_self a t)),
        ih (fun b hb => h b (List.mem_cons_of_mem a hb))]

/-- takeWhile stops exactly at the first failing element. -/
theorem takeWhile_append_stop {α : Type} (p : α → Bool) (x : α)
    (rest : List α) (hx : p x = false) :
    ∀ w : List α, (∀ a ∈ w, p a = true) →
      (w ++ x :: rest).takeWhile p = w := by
  intro w
  induction w with
  | nil =>
      intro _
      simp [List.takeWhile_cons, hx]
  | cons a t ih =>
      intro h
      rw [List.cons_append, List.takeWhile_cons,
        if_pos (h a (List.mem_cons_self a t)),
        ih (fun b hb => h b (List.mem_cons_of_mem a hb))]

/-- dropWhile keeps everything from the first failing element on. -/
theorem dropWhile_append_stop {α : Type} (p : α → Bool) (x : α)
    (rest : List α) (hx : p x = false) :
    ∀ w : List α, (∀ a ∈ w, p a = true) →
      (w ++ x :: rest).dropWhile p = x :: rest := by
  intro w
  induction w with
  | nil =>
      intro _
      simp [List.dropWhile_cons, hx]
  | cons a t ih =>
      intro h
      rw [List.cons_append,
        List.dropWhile_cons_of_pos (h a (List.mem_cons_self a t)),
        ih (fun b hb => h b (List.mem_cons_of_mem a hb))]

/-- A decimal digit character is not the dot character. -/
theorem digit_beq_dot (c : Char) (h : c.isDigit = true) : (c == '.') = false := by
  refine beq_eq_false_iff_ne.mpr ?_
  intro he
  rw [he] at h
  exact absurd h (by decide)

/-- A decimal digit character is not the comma character. -/
theorem digit_beq_comma (c : Char) (h : c.isDigit = true) :
    (c == ',') = false := by
  refine beq_eq_false_iff_ne.mpr ?_
  intro he
  rw [he] at h
  exact absurd h (by decide)

/-- A decimal digit character is not the minus character. -/
theorem digit_ne_minus (c : Char) (h : c.isDigit = true) : ¬(c = '-') := by
  intro he
  rw [he] at h
  exact absurd h (by decide)

/-- Folding digits onto an accumulator shifts the accumulator by a
power of ten. -/
theorem digitsVal_shift :
    ∀ (l : List Char) (a : Nat),
      l.foldl (fun a c => 10 * a + digitVal c) a =
        a * 10 ^ l.length + digitsVal l := by
  intro l
  induction l with
  | nil => intro a; simp [digitsVal]
  | cons c t ih =>
      intro a
      have h1 : (c :: t).foldl (fun a c => 10 * a + digitVal c) a =
          t.foldl (fun a c => 10 * a + digitVal c) (10 * a + digitVal c) := rfl
      have h2 : digitsVal (c :: t) =
          t.foldl (fun a c => 10 * a + digitVal c) (digitVal c) := by
        simp [digitsVal]
      rw [h1, ih (10 * a + digitVal c), h2, ih (digitVal c),
        List.length_cons]
      ring

/-- Value of a concatenated digit string: the left block scaled by ten
to the length of the right block. -/
theorem digitsVal_append (w f : List Char) :
    digitsVal (w ++ f) = digitsVal w * 10 ^ f.length + digitsVal f := by
  unfold digitsVal
  rw [List.foldl_append]
  exact digitsVal_shift f _

/-- Claim C9: amount normalization deletes every dot and then turns
every comma into a dot, so a dot-decimal amount parses to its digits
concatenated (the intended value scaled by ten to the number of
fractional digits), while a comma-decimal amount parses to its intended
value. -/
theorem claim_C9 (w f : List Char)
    (hw : ∀ c ∈ w, c.isDigit = true) (hf : ∀ c ∈ f, c.isDigit = true)
    (hw0 : w ≠ []) (hf0 : f ≠ []) :
    coerceAmount (String.mk (w ++ '.' :: f)) =
      some ((digitsVal (w ++ f) : ℚ))
    ∧ coerceAmount (String.mk (w ++ ',' :: f)) =
        some ((digitsVal w : ℚ) + (digitsVal f : ℚ) / 10 ^ f.length)
    ∧ (digitsVal (w ++ f) : ℚ) =
        ((digitsVal w : ℚ) + (digitsVal f : ℚ) / 10 ^ f.length) *
          10 ^ f.length := by
  have hwf : ∀ c ∈ w ++ f, c.isDigit = true := by
    intro c hc
    rcases List.mem_append.mp hc with h | h
    · exact hw c h
    · exact hf c h
  have hwdot : ∀ c ∈ w, ((fun c => !(c == '.')) c) = true := by
    intro c hc
    simp [digit_beq_dot c (hw c hc)]
  have hfdot : ∀ c ∈ f, ((fun c => !(c == '.')) c) = true := by
    intro c hc
    simp [digit_beq_dot c (hf c hc)]
  have hwfdot : ∀ c ∈ w ++ f, ((fun c => !(c == '.')) c) = true := by
    intro c hc
    simp [digit_beq_dot c (hwf c hc)]
  have hswap : ∀ c ∈ w ++ f,
      ((fun c => if c == ',' then '.' else c) c) = id c := by
    intro c hc
    have h := digit_beq_comma c (hwf c hc)
    simp [h]
  have hnorm1 : normalizeAmountChars (w ++ '.' :: f) = w ++ f := by
    unfold normalizeAmountChars
    have h1 : (w ++ '.' :: f).filter (fun c => !(c == '.')) = w ++ f := by
      rw [List.filter_append, filter_true_of _ w hwdot, List.filter_cons,
        if_neg (by decide), filter_true_of _ f hfdot]
    rw [h1, map_ext_on _ id _ hswap, List.map_id]
  have hnorm2 : normalizeAmountChars (w ++ ',' :: f) = w ++ '.' :: f := by
    unfold normalizeAmountChars
    have h1 : (w ++ ',' :: f).filter (fun c => !(c == '.')) = w ++ ',' :: f := by
      refine filter_true_of _ _ ?_
      intro c hc
      rcases List.mem_append.mp hc with h | h
      · exact hwdot c h
      · rcases List.mem_cons.mp h with rfl | h2
        · decide
        · exact hfdot c h2
    have hswapw : ∀ c ∈ w, ((fun c => if c == ',' then '.' else c) c) = id c := by
      intro c hc
      have h := digit_beq_comma c (hw c hc)
      simp [h]
    have hswapf : ∀ c ∈ f, ((fun c => if c == ',' then '.' else c) c) = id c := by
      intro c hc
      have h := digit_beq_comma c (hf c hc)
      simp [h]
    rw [h1, List.map_append, List.map_cons, map_ext_on _ id _ hswapw,
      map_ext_on _ id _ hswapf, List.map_id, List.map_id]
    norm_num
  have hcore1 : parseDecimalCore (w ++ f) = some ((digitsVal (w ++ f) : ℚ)) := by
    have htake : (w ++ f).takeWhile (fun c => !(c == '.')) = w ++ f :=
      takeWhile_all _ _ hwfdot
    have hdrop : (w ++ f).dropWhile (fun c => !(c == '.')) = [] :=
      dropWhile_all _ _ hwfdot
    simp only [parseDecimalCore, htake, hdrop]
    rw [if_pos]
    refine ⟨?_, List.all_eq_true.mpr hwf⟩
    intro h
    exact hw0 (List.append_eq_nil.mp h).1
  have hcore2 : parseDecimalCore (w ++ '.' :: f) =
      some ((digitsVal w : ℚ) + (digitsVal f : ℚ) / 10 ^ f.length) := by
    have htake : (w ++ '.' :: f).takeWhile (fun c => !(c == '.')) = w :=
      takeWhile_append_stop _ '.' f (by decide) w hwdot
    have hdrop : (w ++ '.' :: f).dropWhile (fun c => !(c == '.')) = '.' :: f :=
      dropWhile_append_stop _ '.' f (by decide) w hwdot
    simp only [parseDecimalCore, htake, hdrop]
    rw [if_pos]
    exact ⟨Or.inl hw0, List.all_eq_true.mpr hw, List.all_eq_true.mpr hf⟩
  have hhead : ∀ l : List Char, l = w ++ f ∨ l = w ++ '.' :: f →
      parseDecimal l = parseDecimalCore l := by
    intro l hl
    cases hw2 : w with
    | nil => exact absurd hw2 hw0
    | cons c t =>
        have hcd : c.isDigit = true := hw c (by rw [hw2]; exact List.mem_cons_self c t)
        have hcm := digit_ne_minus c hcd
        rcases hl with rfl | rfl <;>
          · rw [hw2, List.cons_append, parseDecimal, if_neg hcm]
  refine ⟨?_, ?_, ?_⟩
  · show parseDecimal (normalizeAmountChars (String.mk (w ++ '.' :: f)).data) = _
    rw [show (String.mk (w ++ '.' :: f)).data = w ++ '.' :: f from rfl, hnorm1,
      hhead (w ++ f) (Or.inl rfl), hcore1]
  · show parseDecimal (normalizeAmountChars (String.mk (w ++ ',' :: f)).data) = _
    rw [show (String.mk (w ++ ',' :: f)).data = w ++ ',' :: f from rfl, hnorm2,
      hhead (w ++ '.' :: f) (Or.inr rfl), hcore2]
  · have hq : ((10 : ℚ) ^ f.length) ≠ 0 := by positivity
    rw [digitsVal_append]
    push_cast
    field_simp

/-- Witness for C9 at the amount written `10.50` resp. `10,50`. -/
theorem claim_C9_witness :
    coerceAmount "10.50" = some ((digitsVal (['1', '0'] ++ ['5', '0']) : ℚ))
    ∧ coerceAmount "10,50" =
        some ((digitsVal ['1', '0'] : ℚ) +
          (digitsVal ['5', '0'] : ℚ) / 10 ^ (['5', '0'] : List Char).length) := by
  have h := claim_C9 ['1', '0'] ['5', '0'] (by decide) (by decide) (by decide)
    (by decide)
  exact ⟨h.1, h.2.1⟩

/-- Two filters agreeing on every element of a list agree on the
list. -/
theorem filter_ext_on {α : Type} (p q : α → Bool) :
    ∀ l : List α, (∀ a ∈ l, p a = q a) → l.filter p = l.filter q := by
  intro l
  induction l with
  | nil => intro _; rfl
  | cons a t ih =>
      intro h
      rw [List.filter_cons, List.filter_cons, h a (List.mem_cons_self a t),
        ih (fun b hb => h b (List.mem_cons_of_mem a hb))]

/-- Filtering by a conjunction is iterated filtering. -/
theorem filter_and_split {α : Type} (p q : α → Bool) :
    ∀ l : List α, l.filter (fun a => p a && q a) = (l.filter p).filter q := by
  intro l
  induction l with
  | nil => rfl
  | cons a t ih =>
      cases hp : p a with
      | true =>
          cases hq : q a with
          | true => simp [List.filter_cons, hp, hq, ih]
          | false => simp [List.filter_cons, hp, hq, ih]
      | false => simp [List.filter_cons, hp, ih]

/-- Elements mapping to zero can be dropped from a sum. -/
theorem sum_filter_zero {α : Type} (p : α → Bool) (g : α → ℚ) :
    ∀ l : List α, (∀ a ∈ l, p a = false → g a = 0) →
      ((l.filter p).map g).sum = (l.map g).sum := by
  intro l
  induction l with
  | nil => intro _; rfl
  | cons a t ih =>
      intro h
      have ht := ih (fun b hb => h b (List.mem_cons_of_mem a hb))
      cases hp : p a with
      | true =>
          rw [List.filter_cons, if_pos (by rw [hp]), List.map_cons,
            List.sum_cons, List.map_cons, List.sum_cons, ht]
      | false =>
          rw [List.filter_cons, if_neg (by rw [hp]; simp), List.map_cons,
            List.sum_cons, h a (List.mem_cons_self a t) hp, ht]
          ring

/-- Adding a constant at one occurrence of a duplicate-free key list
adds it to the total once. -/
theorem sum_if_mem {K : Type} [DecidableEq K] (c : ℚ) (g : K → ℚ) :
    ∀ (ks : List K) (k0 : K), ks.Nodup → k0 ∈ ks →
      (ks.map (fun k => if k0 = k then c + g k else g k)).sum =
        c + (ks.map g).sum := by
  intro ks
  induction ks with
  | nil => intro k0 _ h; simp at h
  | cons a t ih =>
      intro k0 hnd hk
      rw [List.map_cons, List.map_cons, List.sum_cons, List.sum_cons]
      rcases List.mem_cons.mp hk with rfl | hk2
      · rw [if_pos rfl]
        have hnotin : k0 ∉ t := (List.nodup_cons.mp hnd).1
        have ht : t.map (fun k => if k0 = k then c + g k else g k) = t.map g := by
          refine map_ext_on _ _ _ ?_
          intro b hb
          rw [if_neg]
          intro he
          exact hnotin (he ▸ hb)
        rw [ht]
        ring
      · have hne : k0 ≠ a := by
          intro he
          exact (List.nodup_cons.mp hnd).1 (he ▸ hk2)
        rw [if_neg hne, ih k0 (List.nodup_cons.mp hnd).2 hk2]
        ring

/-- Summing the per-group totals over a duplicate-free list of keys
covering every row recovers the total over the rows with a key. -/
theorem sum_fiber (ks : List SKey) (hnd : ks.Nodup) :
    ∀ l : List CompTx,
      (∀ t ∈ l, ∀ k, summaryKey t = some k → k ∈ ks) →
      (ks.map (fun k =>
        ((l.filter (fun t => decide (summaryKey t = some k))).map
          txAmount).sum)).sum =
      ((l.filter (fun t => (summaryKey t).isSome)).map txAmount).sum := by
  intro l
  induction l with
  | nil =>
      intro _
      have h1 : (ks.map (fun k =>
          ((([] : List CompTx).filter
            (fun t => decide (summaryKey t = some k))).map txAmount).sum)).sum =
          (0 : ℚ) := by
        refine List.sum_eq_zero ?_
        intro x hx
        rcases List.mem_map.mp hx with ⟨k, _, rfl⟩
        rfl
      rw [h1]
      rfl
  | cons a t ih =>
      intro hcov
      have hcovt : ∀ x ∈ t, ∀ k, summaryKey x = some k → k ∈ ks :=
        fun x hx => hcov x (List.mem_cons_of_mem a hx)
      cases hsk : summaryKey a with
      | some k0 =>
          have hk0 : k0 ∈ ks := hcov a (List.mem_cons_self a t) k0 hsk
          have hstep : ∀ k ∈ ks,
              (fun k => (((a :: t).filter
                (fun x => decide (summaryKey x = some k))).map txAmount).sum) k =
              (fun k => if k0 = k then
                  txAmount a + ((t.filter
                    (fun x => decide (summaryKey x = some k))).map txAmount).sum
                else ((t.filter
                  (fun x => decide (summaryKey x = some k))).map txAmount).sum) k := by
            intro k _
            simp only
            rw [List.filter_cons]
            by_cases hk : k0 = k
            · rw [if_pos (by simp [hsk, hk]), if_pos hk, List.map_cons,
                List.sum_cons]
            · rw [if_neg (by simp [hsk, hk]), if_neg hk]
          rw [map_ext_on _ _ ks hstep,
            sum_if_mem (txAmount a)
              (fun k => ((t.filter
                (fun x => decide (summaryKey x = some k))).map txAmount).sum)
              ks k0 hnd hk0,
            ih hcovt, List.filter_cons, if_pos (by simp [hsk]), List.map_cons,
            List.sum_cons]
      | none =>
          have hstep : ∀ k ∈ ks,
              (fun k => (((a :: t).filter
                (fun x => decide (summaryKey x = some k))).map txAmount).sum) k =
              (fun k => ((t.filter
                (fun x => decide (summaryKey x = some k))).map txAmount).sum) k := by
            intro k _
            simp only
            rw [List.filter_cons, if_neg (by simp [hsk])]
          rw [map_ext_on _ _ ks hstep, ih hcovt, List.filter_cons,
            if_neg (by simp [hsk])]

/-- Claim C2: conservation of the total: the summary totals of
`compute_summary` sum to the sum of the amounts of the transactions
with non-null competence and non-null amount. -/
theorem claim_C2 (df : List CompTx) :
    ((compute_summary df).map (fun s => s.total_amount)).sum =
      ((df.filter (fun t => t.competence.isSome && t.cls.row.amount.isSome)).map
        txAmount).sum := by
  cases df with
  | nil => rfl
  | cons a t =>
      have hcs : compute_summary (a :: t) = (groupKeys (a :: t)).map (fun k =>
          mkSummaryRow k ((((a :: t).filter
            (fun x => decide (summaryKey x = some k))).map txAmount).sum)) := rfl
      rw [hcs, List.map_map]
      have hcomp : List.map
          ((fun s : SummaryRow => s.total_amount) ∘ fun k =>
            mkSummaryRow k ((((a :: t).filter
              (fun x => decide (summaryKey x = some k))).map txAmount).sum))
          (groupKeys (a :: t)) =
          List.map (fun k => (((a :: t).filter
            (fun x => decide (summaryKey x = some k))).map txAmount).sum)
          (groupKeys (a :: t)) := rfl
      rw [hcomp]
      have hnd : (groupKeys (a :: t)).Nodup := by
        have h := dropDupSeen_keys_nodup (id : SKey → SKey)
          ((a :: t).filterMap summaryKey) []
        simpa [groupKeys, dedupFirst] using h
      have hcov : ∀ x ∈ a :: t, ∀ k, summaryKey x = some k →
          k ∈ groupKeys (a :: t) := by
        intro x hx k hk
        have hmem : k ∈ (a :: t).filterMap summaryKey :=
          List.mem_filterMap.mpr ⟨x, hx, hk⟩
        simp only [groupKeys, dedupFirst]
        exact dedupFirst_mem _ [] k hmem (by simp)
      rw [sum_fiber (groupKeys (a :: t)) hnd (a :: t) hcov]
      have hps : ∀ x ∈ (a :: t),
          ((fun x : CompTx => (summaryKey x).isSome) x) =
          ((fun x : CompTx => x.competence.isSome) x) := by
        intro x _
        cases hc : x.competence <;> simp [summaryKey, hc]
      rw [filter_ext_on _ _ (a :: t) hps,
        filter_and_split (fun x : CompTx => x.competence.isSome)
          (fun x : CompTx => x.cls.row.amount.isSome) (a :: t),
        sum_filter_zero (fun x : CompTx => x.cls.row.amount.isSome) txAmount
          ((a :: t).filter (fun x : CompTx => x.competence.isSome))
          (by
            intro x _ hx
            have hx2 : x.cls.row.amount.isSome = false := hx
            cases hm : x.cls.row.amount with
            | none => simp [txAmount, hm]
            | some v => rw [hm] at hx2; simp at hx2)]
